import Mathlib

/-!
Verification of the varmint varint codec.

The definitions below are a shallow embedding of `src/parser.rs`,
`src/write.rs`, `src/read.rs` and `src/bytes_impl.rs`.  Machine integers
(`u64`) are modelled as `Nat` with an explicit `% 2 ^ 64` exactly where the
Rust `u64` arithmetic wraps; bytes (`u8`) are `Nat`s, with a `< 256` bound
carried as a hypothesis where a statement quantifies over bytes.
-/

set_option maxRecDepth 100000

/-- The error enum of `src/error.rs`: its single variant `Error::LengthExceeded`. -/
inductive Error where
  | lengthExceeded
deriving DecidableEq

/-- The parser state of `src/parser.rs`: fields `done`, `result` (a `u64`,
modelled as a `Nat` below `2 ^ 64`) and `offset` (a `usize`). -/
structure Parser where
  done : Bool
  result : Nat
  offset : Nat
deriving DecidableEq

/-- `Parser::new` from `src/parser.rs`. -/
def Parser.new : Parser := { done := false, result := 0, offset := 0 }

/-- Equality of `Except` values is decidable when it is on both components. -/
instance {ε α : Type} [DecidableEq ε] [DecidableEq α] : DecidableEq (Except ε α) := fun x y =>
  match x, y with
  | .ok a, .ok b =>
      if h : a = b then isTrue (by rw [h]) else isFalse (by simp [h])
  | .error a, .error b =>
      if h : a = b then isTrue (by rw [h]) else isFalse (by simp [h])
  | .ok _, .error _ => isFalse (by simp)
  | .error _, .ok _ => isFalse (by simp)

/-- The observable outcome of one `Parser::push` call: Rust mutates `self`
and returns a `Result<()>`; the `panic!("Parser already done")` branch is the
`panicked` case, which carries no successor state. -/
inductive PushOut where
  | panicked
  | ret (p : Parser) (r : Except Error Unit)
deriving DecidableEq

/-- `Parser::push` from `src/parser.rs`.  In the `offset == 63` error branch
`done` has already been set to `true` before `Err` is returned, exactly as in
the source.  The two `+=` updates of the `u64` field `result` are taken
modulo `2 ^ 64`. -/
def Parser.push (p : Parser) (byte : Nat) : PushOut :=
  if p.done then
    .panicked
  else if p.offset = 63 then
    if byte = 0x01 then
      .ret { p with done := true, result := (p.result + (1 <<< 63)) % 2 ^ 64 } (.ok ())
    else
      .ret { p with done := true } (.error .lengthExceeded)
  else
    .ret { done := byte &&& 0x80 == 0,
           result := (p.result + ((byte &&& 0x7F) <<< p.offset)) % 2 ^ 64,
           offset := p.offset + 7 } (.ok ())

/-- `Parser::result` from `src/parser.rs`: returns the accumulated value when
`done`, and panics (modelled as `none`) otherwise. -/
def Parser.result' (p : Parser) : Option Nat :=
  if p.done then some p.result else none

/-- A sequence of `push` calls that must all succeed: `none` if any call
panics or returns `Err`. -/
def pushAll (p : Parser) : List Nat → Option Parser
  | [] => some p
  | b :: bs =>
    match p.push b with
    | .ret p' (.ok _) => pushAll p' bs
    | _ => none

/-- The byte-production loop of `write_u64_varint` from `src/write.rs`:
`while val > 0x7F { bytes.push(val as u8 | 0x80); val = val >> 7; }
bytes.push(val as u8);` — the `as u8` cast is `% 256`. -/
def write_u64_varint (val : Nat) : List Nat :=
  if h : val > 0x7F then
    ((val % 256) ||| 0x80) :: write_u64_varint (val >>> 7)
  else
    [val % 256]
termination_by val
decreasing_by
  simp only [Nat.shiftRight_eq_div_pow]
  exact Nat.div_lt_self (by omega) (by norm_num)

/-- The `std::io::Error` values produced in `src/read.rs`: `unexpectedEof`
from `read_exact` on an exhausted source, `varint e` from `other(e)` wrapping
a varint `Error`, and `usizeExceeded` for
`io::Error::new(Other, "varint exceeded usize maximum bits")`. -/
inductive IoError where
  | unexpectedEof
  | varint (e : Error)
  | usizeExceeded
deriving DecidableEq

/-- The loop of `read_u64_varint` from `src/read.rs`
(`while !parser.done() { parser.push(self.read_u8()?).map_err(other)?; }
Ok(parser.result())`), with the source modelled as the list of bytes a
`&[u8]` reader yields; `read_u8` on an empty source is the `read_exact`
`UnexpectedEof` error.  Returns the value and the unconsumed rest.  The
`panicked` arm is unreachable: the loop only pushes while `!parser.done()`. -/
def readLoop : Parser → List Nat → Except IoError (Nat × List Nat)
  | p, [] => if p.done then .ok (p.result, []) else .error .unexpectedEof
  | p, b :: rest =>
    if p.done then .ok (p.result, b :: rest)
    else
      match p.push b with
      | .ret p' (.ok _) => readLoop p' rest
      | .ret _ (.error e) => .error (.varint e)
      | .panicked => .error .unexpectedEof

/-- `read_u64_varint` of `src/read.rs` on a fresh parser. -/
def read_u64_varint (bytes : List Nat) : Except IoError (Nat × List Nat) :=
  readLoop Parser.new bytes

/-- The loop of `try_read_u64_varint` from `src/read.rs`: like `readLoop`,
but `try_read_u8` yields `None` on an exhausted source and the loop then
returns `Ok(None)`. -/
def tryReadLoop : Parser → List Nat → Except IoError (Option Nat × List Nat)
  | p, [] => if p.done then .ok (some p.result, []) else .ok (none, [])
  | p, b :: rest =>
    if p.done then .ok (some p.result, b :: rest)
    else
      match p.push b with
      | .ret p' (.ok _) => tryReadLoop p' rest
      | .ret _ (.error e) => .error (.varint e)
      | .panicked => .error .unexpectedEof

/-- `try_read_u64_varint` of `src/read.rs` on a fresh parser. -/
def try_read_u64_varint (bytes : List Nat) : Except IoError (Option Nat × List Nat) :=
  tryReadLoop Parser.new bytes

/-- `read_usize_varint` of `src/read.rs`: read a `u64` varint, then
range-check it against `usize::max_value()`.  The platform word size is a
parameter `usizeMax`. -/
def read_usize_varint (usizeMax : Nat) (bytes : List Nat) :
    Except IoError (Nat × List Nat) :=
  match read_u64_varint bytes with
  | .ok (v, rest) => if v ≤ usizeMax then .ok (v, rest) else .error .usizeExceeded
  | .error e => .error e

/-- An in-memory buffer: the `bytes::Buf` capability set as instantiated by
`Cursor<Vec<u8>>` in the tests of `src/bytes_impl.rs` — underlying `data`
plus a consumed position `pos`; `bytes()` is the remaining slice. -/
structure Buf where
  data : List Nat
  pos : Nat
deriving DecidableEq

/-- `Buf::bytes()`: the remaining unconsumed bytes. -/
def Buf.remaining (b : Buf) : List Nat := b.data.drop b.pos

/-- `Buf::advance(n)`: move the consumed position forward by `n`. -/
def Buf.advance (b : Buf) (n : Nat) : Buf := { b with pos := b.pos + n }

/-- The loop of `try_get_u64_varint` from `src/bytes_impl.rs`: walk the
resident bytes with an index `i`, pushing while `i < bytes.len()` and the
parser is not done; a push `Err` propagates, exhaustion yields `none`.
Returns the parsed value together with the number of bytes it used. -/
def tryGetLoop : Parser → List Nat → Nat → Except Error (Option (Nat × Nat))
  | p, [], i => if p.done then .ok (some (p.result, i)) else .ok none
  | p, b :: rest, i =>
    if p.done then .ok (some (p.result, i))
    else
      match p.push b with
      | .ret p' (.ok _) => tryGetLoop p' rest (i + 1)
      | .ret _ (.error e) => .error e
      | .panicked => .error .lengthExceeded

/-- `try_get_u64_varint` of `src/bytes_impl.rs`: parse out of the resident
bytes without consuming, then `advance(i)` only once a complete value was
parsed; otherwise the buffer is returned unchanged. -/
def try_get_u64_varint (buf : Buf) : Except Error (Option Nat × Buf) :=
  match tryGetLoop Parser.new buf.remaining 0 with
  | .ok (some (v, i)) => .ok (some v, buf.advance i)
  | .ok none => .ok (none, buf)
  | .error e => .error e

/-- `try_get_usize_varint` of `src/bytes_impl.rs`: the `u64` read followed by
the range check against `usize::max_value()`, failing with
`Error::LengthExceeded` itself when the value does not fit. -/
def try_get_usize_varint (usizeMax : Nat) (buf : Buf) :
    Except Error (Option Nat × Buf) :=
  match try_get_u64_varint buf with
  | .ok (some v, buf') =>
      if v ≤ usizeMax then .ok (some v, buf') else .error .lengthExceeded
  | .ok (none, buf') => .ok (none, buf')
  | .error e => .error e

/-- A structurally valid wire encoding of `v` in exactly `n` bytes, with
trailing zero groups allowed (the spec's non-minimal encodings): the first
`n - 1` bytes carry 7-bit groups with the continuation bit set, the last
byte is the remaining group with bit 7 clear. -/
def padEnc (v : Nat) : Nat → List Nat
  | 0 => []
  | 1 => [v]
  | n + 2 => ((v &&& 0x7F) ||| 0x80) :: padEnc (v >>> 7) (n + 1)

/-! ### Basic facts about bytes and single `push` steps -/

lemma contByte_and : ∀ w < 256, ((w ||| 128) &&& 128 = 128 ∧ (w ||| 128) &&& 127 = w % 128) := by
  decide

lemma termByte_and : ∀ w < 128, (w &&& 128 = 0 ∧ w &&& 127 = w) := by decide

lemma push_cont {p : Parser} {b : Nat} (hd : p.done = false) (ho : p.offset ≠ 63)
    (hb : b &&& 128 = 128) :
    p.push b = .ret ⟨false, (p.result + ((b &&& 127) <<< p.offset)) % 2 ^ 64, p.offset + 7⟩
      (.ok ()) := by
  simp [Parser.push, hd, ho, hb]

lemma push_term {p : Parser} {b : Nat} (hd : p.done = false) (ho : p.offset ≠ 63)
    (hb : b &&& 128 = 0) :
    p.push b = .ret ⟨true, (p.result + ((b &&& 127) <<< p.offset)) % 2 ^ 64, p.offset + 7⟩
      (.ok ()) := by
  simp [Parser.push, hd, ho, hb]

lemma push_last_one {p : Parser} (hd : p.done = false) (ho : p.offset = 63) :
    p.push 1 = .ret ⟨true, (p.result + (1 <<< 63)) % 2 ^ 64, 63⟩ (.ok ()) := by
  simp [Parser.push, hd, ho]

lemma push_last_bad {p : Parser} {b : Nat} (hd : p.done = false) (ho : p.offset = 63)
    (hb : b ≠ 1) :
    p.push b = .ret ⟨true, p.result, 63⟩ (.error .lengthExceeded) := by
  simp [Parser.push, hd, ho, hb]

/-! ### Unfolding lemmas for the adapter loops -/

lemma write_u64_varint_cont {v : Nat} (h : v > 0x7F) :
    write_u64_varint v = ((v % 256) ||| 0x80) :: write_u64_varint (v >>> 7) := by
  rw [write_u64_varint]
  exact dif_pos h

lemma write_u64_varint_last {v : Nat} (h : ¬ v > 0x7F) :
    write_u64_varint v = [v % 256] := by
  rw [write_u64_varint]
  exact dif_neg h

lemma readLoop_done {p : Parser} (bytes : List Nat) (h : p.done = true) :
    readLoop p bytes = .ok (p.result, bytes) := by
  cases bytes <;> simp [readLoop, h]

lemma readLoop_step {p p' : Parser} {b : Nat} {rest : List Nat} (hd : p.done = false)
    (hp : p.push b = .ret p' (.ok ())) :
    readLoop p (b :: rest) = readLoop p' rest := by
  simp [readLoop, hd, hp]

lemma readLoop_err {p p' : Parser} {b : Nat} {rest : List Nat} {e : Error} (hd : p.done = false)
    (hp : p.push b = .ret p' (.error e)) :
    readLoop p (b :: rest) = .error (.varint e) := by
  simp [readLoop, hd, hp]

/-! ### Round-trip: decoding an encoding -/

/-- Main loop invariant for the round trip: feeding `write_u64_varint v` into
a parser that already holds `p.result` at bit offset `p.offset` produces the
combined value.  The hypothesis `p.offset = 63 → v = 1` reflects that the
10th byte can only ever be reached carrying exactly bit 63. -/
theorem readLoop_write :
    ∀ v p, p.done = false → p.offset % 7 = 0 → p.offset ≤ 63 →
      (p.offset = 63 → v = 1) → p.result < 2 ^ p.offset →
      p.result + v * 2 ^ p.offset < 2 ^ 64 →
      readLoop p (write_u64_varint v) = .ok (p.result + v * 2 ^ p.offset, []) := by
  intro v
  induction v using Nat.strong_induction_on with
  | _ v ih =>
    intro p hd h7 hle h63 hres htot
    by_cases hv : v > 0x7F
    · -- continuation byte
      have ho : p.offset ≠ 63 := fun h => by have := h63 h; omega
      have ho56 : p.offset ≤ 56 := by omega
      rw [write_u64_varint_cont hv]
      have hb : ((v % 256) ||| 128) &&& 128 = 128 :=
        (contByte_and _ (Nat.mod_lt _ (by norm_num))).1
      have hg : ((v % 256) ||| 128) &&& 127 = v % 128 := by
        have h := (contByte_and _ (Nat.mod_lt v (by norm_num))).2
        rwa [Nat.mod_mod_of_dvd v (by norm_num)] at h
      have hpush := push_cont (b := (v % 256) ||| 128) hd ho hb
      rw [hg, Nat.shiftLeft_eq] at hpush
      have hmle : v % 128 * 2 ^ p.offset ≤ v * 2 ^ p.offset :=
        Nat.mul_le_mul_right _ (Nat.mod_le v 128)
      have hlt : p.result + v % 128 * 2 ^ p.offset < 2 ^ 64 := by omega
      rw [Nat.mod_eq_of_lt hlt] at hpush
      rw [readLoop_step hd hpush]
      have hshr : v >>> 7 = v / 128 := by
        rw [Nat.shiftRight_eq_div_pow]
      have hA7 : 2 ^ (p.offset + 7) = 2 ^ p.offset * 128 := by
        rw [pow_add]
        norm_num
      have key : p.result + v % 128 * 2 ^ p.offset + v / 128 * 2 ^ (p.offset + 7)
          = p.result + v * 2 ^ p.offset := by
        rw [hA7]
        have h := Nat.mod_add_div v 128
        calc p.result + v % 128 * 2 ^ p.offset + v / 128 * (2 ^ p.offset * 128)
            = p.result + (v % 128 + 128 * (v / 128)) * 2 ^ p.offset := by ring
          _ = p.result + v * 2 ^ p.offset := by rw [h]
      have h4 : (⟨false, p.result + v % 128 * 2 ^ p.offset, p.offset + 7⟩ : Parser).offset = 63 →
          v >>> 7 = 1 := by
        intro hoff
        have h56 : p.offset = 56 := by
          have h : p.offset + 7 = 63 := hoff
          omega
        rw [hshr]
        rw [h56] at htot
        have hv256 : v < 256 := by
          by_contra hge
          push_neg at hge
          have hmul : 256 * 2 ^ 56 ≤ v * 2 ^ 56 := Nat.mul_le_mul_right _ hge
          have h2p : (256 : Nat) * 2 ^ 56 = 2 ^ 64 := by norm_num
          omega
        omega
      have h5 : p.result + v % 128 * 2 ^ p.offset < 2 ^ (p.offset + 7) := by
        rw [hA7]
        have hm : v % 128 * 2 ^ p.offset ≤ 127 * 2 ^ p.offset :=
          Nat.mul_le_mul_right _ (by omega)
        have hApos : 0 < 2 ^ p.offset := Nat.pos_pow_of_pos _ (by norm_num)
        omega
      have h6 : p.result + v % 128 * 2 ^ p.offset + v >>> 7 * 2 ^ (p.offset + 7) < 2 ^ 64 := by
        rw [hshr, key]
        exact htot
      have happ := ih (v >>> 7) (by rw [hshr]; exact Nat.div_lt_self (by omega) (by norm_num))
        ⟨false, p.result + v % 128 * 2 ^ p.offset, p.offset + 7⟩ rfl
        (by show (p.offset + 7) % 7 = 0; omega)
        (by show p.offset + 7 ≤ 63; omega)
        h4 h5 h6
      rw [happ]
      show Except.ok (p.result + v % 128 * 2 ^ p.offset + v >>> 7 * 2 ^ (p.offset + 7),
        ([] : List Nat)) = _
      rw [hshr, key]
    · -- terminal byte
      rw [write_u64_varint_last hv]
      have hv256 : v % 256 = v := Nat.mod_eq_of_lt (by omega)
      rw [hv256]
      by_cases ho : p.offset = 63
      · have hv1 : v = 1 := h63 ho
        subst hv1
        have hpush := push_last_one hd ho
        have hsh : (1 : Nat) <<< 63 = 2 ^ 63 := by
          rw [Nat.shiftLeft_eq]
          ring
        rw [hsh] at hpush
        have hlt : p.result + 2 ^ 63 < 2 ^ 64 := by
          rw [ho] at hres
          have : (2 : Nat) ^ 64 = 2 ^ 63 + 2 ^ 63 := by norm_num
          omega
        rw [Nat.mod_eq_of_lt hlt] at hpush
        rw [readLoop_step hd hpush, readLoop_done _ rfl]
        simp [ho]
      · obtain ⟨hb0, hb7⟩ := termByte_and v (by omega)
        have hpush := push_term hd ho hb0
        rw [hb7, Nat.shiftLeft_eq] at hpush
        rw [Nat.mod_eq_of_lt htot] at hpush
        rw [readLoop_step hd hpush, readLoop_done _ rfl]

/-! ### Claim theorems -/

/-- C1: for every value `v` of type `u64`, encoding `v` with the encoder
(`write_u64_varint`'s byte-production loop) and then feeding the produced
bytes in order to a fresh `Parser` via `push` until done (the
`read_u64_varint` loop) yields exactly `v` from `result()`. -/
theorem c1_roundtrip (v : Nat) (hv : v < 2 ^ 64) :
    read_u64_varint (write_u64_varint v) = .ok (v, []) := by
  have h := readLoop_write v Parser.new rfl rfl
    (by show (0 : Nat) ≤ 63; norm_num)
    (by intro h; simp [Parser.new] at h)
    (by show (0 : Nat) < 2 ^ 0; norm_num)
    (by show 0 + v * 2 ^ 0 < 2 ^ 64; omega)
  show readLoop Parser.new (write_u64_varint v) = _
  rw [h]
  show Except.ok (0 + v * 2 ^ 0, ([] : List Nat)) = _
  norm_num

/-- Witness for C1 at the test vector `0x4B3FB5`. -/
theorem c1_roundtrip_witness :
    (0x4B3FB5 : Nat) < 2 ^ 64 ∧
      read_u64_varint (write_u64_varint 0x4B3FB5) = .ok (0x4B3FB5, []) :=
  ⟨by norm_num, c1_roundtrip 0x4B3FB5 (by norm_num)⟩

/-- C2: pushing the 10th byte (`bit_offset = 63`): byte `0x01` sets bit 63
and finishes successfully; any other byte fails with `LengthExceeded`, with
`done` already set, so the parser accepts no further input (every later
`push` panics). -/
theorem c2_tenth_byte (p : Parser) (b : Nat) (_hb : b < 256) (hd : p.done = false)
    (ho : p.offset = 63) (hr : p.result < 2 ^ 63) (hne : b ≠ 1) :
    p.push 1 = .ret ⟨true, p.result + 2 ^ 63, 63⟩ (.ok ())
    ∧ Nat.testBit (p.result + 2 ^ 63) 63 = true
    ∧ p.push b = .ret ⟨true, p.result, 63⟩ (.error .lengthExceeded)
    ∧ ∀ b2, (Parser.mk true p.result 63).push b2 = .panicked := by
  refine ⟨?_, ?_, push_last_bad hd ho hne, ?_⟩
  · have h := push_last_one hd ho
    have hsh : (1 : Nat) <<< 63 = 2 ^ 63 := by
      rw [Nat.shiftLeft_eq]
      ring
    rw [hsh] at h
    have hlt : p.result + 2 ^ 63 < 2 ^ 64 := by
      have h2 : (2 : Nat) ^ 64 = 2 ^ 63 + 2 ^ 63 := by norm_num
      omega
    rwa [Nat.mod_eq_of_lt hlt] at h
  · rw [Nat.testBit_to_div_mod]
    have h0 : p.result / 2 ^ 63 = 0 := Nat.div_eq_of_lt hr
    have h1 : (p.result + 2 ^ 63) / 2 ^ 63 = p.result / 2 ^ 63 + 1 :=
      Nat.add_div_right _ (by positivity)
    norm_num at h0 h1 ⊢
    omega
  · intro b2
    simp [Parser.push]

/-- Witness for C2 at the state `⟨false, 5, 63⟩` and the byte `0`. -/
theorem c2_tenth_byte_witness :
    (Parser.mk false 5 63).push 1 = .ret ⟨true, 5 + 2 ^ 63, 63⟩ (.ok ())
    ∧ Nat.testBit (5 + 2 ^ 63) 63 = true
    ∧ (Parser.mk false 5 63).push 0 = .ret ⟨true, 5, 63⟩ (.error .lengthExceeded)
    ∧ ∀ b2, (Parser.mk true 5 63).push b2 = .panicked :=
  c2_tenth_byte ⟨false, 5, 63⟩ 0 (by norm_num) rfl rfl (by norm_num) (by norm_num)

/-- C3 counterexample: the 10-byte input whose first 9 bytes are `0x80`
(continuation bit set, zero groups) and whose 10th byte is exactly `0x00` is
NOT accepted by the decoder — it fails with `LengthExceeded`, because
`Parser::push` accepts only `0x01` as the 10th byte. -/
theorem c3_counterexample :
    read_u64_varint [0x80, 0x80, 0x80, 0x80, 0x80, 0x80, 0x80, 0x80, 0x80, 0x00] =
      .error (.varint .lengthExceeded) := by decide

/-- C4: what the code actually does at the failing input.  A source holding
exactly `[0xFF]` is exhausted mid-value, yet `try_read_u64_varint` returns
`Ok(None)` — the same "no value" result as for the empty source — in
contradiction with the claim (and with the function's own documentation),
which requires a truncation error there. -/
theorem c4_truncation_behavior :
    try_read_u64_varint [0xFF] = .ok (none, [])
    ∧ try_read_u64_varint [] = .ok (none, []) := by decide

/-- C5 counterexample: on a 32-bit platform (`usize::MAX = 2 ^ 32 - 1`) the
buffer-based `try_get_usize_varint` reports a decoded value that does not fit
`usize` (here `2 ^ 32`, encoded as `[0x80, 0x80, 0x80, 0x80, 0x10]`) as
`Error::LengthExceeded` itself — not as a condition distinct from
`LengthExceeded`, contrary to the claim. -/
theorem c5_counterexample :
    try_get_usize_varint (2 ^ 32 - 1) ⟨[0x80, 0x80, 0x80, 0x80, 0x10], 0⟩ =
      .error .lengthExceeded := by decide

/-- C10: the misuse faults are loudly fatal: `push` on a `done` parser
panics (and only then), and `result` panics exactly when the parser is not
yet done; under the stated preconditions the fatal branches are
unreachable. -/
theorem c10_misuse (p : Parser) (b : Nat) :
    (p.push b = .panicked ↔ p.done = true) ∧ (p.result' = none ↔ p.done = false) := by
  obtain ⟨d, r, o⟩ := p
  cases d <;> simp [Parser.push, Parser.result']
  split
  · split <;> simp
  · simp

/-- The number of bytes `write_u64_varint` emits, as a function of the bit
length (`Nat.size`) of the value. -/
lemma write_length (v : Nat) :
    (write_u64_varint v).length = max 1 ((Nat.size v + 6) / 7) := by
  induction v using Nat.strong_induction_on with
  | _ v ih =>
    by_cases hv : v > 0x7F
    · rw [write_u64_varint_cont hv]
      have hshr : v >>> 7 = v / 128 := by rw [Nat.shiftRight_eq_div_pow]
      have hlen := ih (v >>> 7) (by rw [hshr]; exact Nat.div_lt_self (by omega) (by norm_num))
      have hs8 : 8 ≤ Nat.size v := by
        have h7 : 7 < Nat.size v := Nat.lt_size.mpr (by show 2 ^ 7 ≤ v; norm_num; omega)
        omega
      have hub : Nat.size (v >>> 7) ≤ Nat.size v - 7 := by
        rw [Nat.size_le, hshr, Nat.div_lt_iff_lt_mul (by norm_num : (0 : Nat) < 128)]
        calc v < 2 ^ Nat.size v := Nat.lt_size_self v
          _ = 2 ^ (Nat.size v - 7) * 128 := by
              have h : Nat.size v - 7 + 7 = Nat.size v := by omega
              rw [← h, pow_add]
              norm_num
      have hlb : Nat.size v - 7 ≤ Nat.size (v >>> 7) := by
        by_contra hlt
        push_neg at hlt
        have h1 : Nat.size (v >>> 7) ≤ Nat.size v - 8 := by omega
        have h2 : v >>> 7 < 2 ^ (Nat.size v - 8) :=
          lt_of_lt_of_le (Nat.lt_size_self (v >>> 7)) (Nat.pow_le_pow_right (by norm_num) h1)
        rw [hshr] at h2
        have h3 : v < 2 ^ (Nat.size v - 8) * 128 :=
          (Nat.div_lt_iff_lt_mul (by norm_num : (0 : Nat) < 128)).mp h2
        have h4 : 2 ^ (Nat.size v - 8) * 128 = 2 ^ (Nat.size v - 1) := by
          have h : Nat.size v - 8 + 7 = Nat.size v - 1 := by omega
          rw [← h, pow_add]
          norm_num
        have h5 : Nat.size v ≤ Nat.size v - 1 := Nat.size_le.mpr (by omega)
        omega
      have hsub : Nat.size (v >>> 7) = Nat.size v - 7 := le_antisymm hub hlb
      rw [List.length_cons, hlen, hsub]
      have h1 : 1 ≤ (Nat.size v - 7 + 6) / 7 := by omega
      have h2 : 1 ≤ (Nat.size v + 6) / 7 := by omega
      rw [max_eq_right h1, max_eq_right h2]
      omega
    · rw [write_u64_varint_last hv]
      have hs : Nat.size v ≤ 7 := Nat.size_le.mpr (by omega)
      have h1 : (Nat.size v + 6) / 7 ≤ 1 := by omega
      have h2 : max 1 ((Nat.size v + 6) / 7) = 1 := max_eq_left h1
      rw [h2]
      rfl

/-- C6: the encoder produces exactly `max(1, ceil(bit_length(v) / 7))`
bytes; `encode(0)` is the single byte `0x00`; no encoding of a `u64`
exceeds 10 bytes. -/
theorem c6_minimal_length (v : Nat) (hv : v < 2 ^ 64) :
    (write_u64_varint v).length = max 1 ((Nat.size v + 6) / 7)
    ∧ (write_u64_varint v).length ≤ 10
    ∧ write_u64_varint 0 = [0x00] := by
  refine ⟨write_length v, ?_, ?_⟩
  · rw [write_length v]
    have hs : Nat.size v ≤ 64 := Nat.size_le.mpr hv
    have hx : (Nat.size v + 6) / 7 ≤ 10 := by omega
    exact max_le (by norm_num) hx
  · rw [write_u64_varint_last (by norm_num)]

/-- Witness for C6 at the test vector `0x12C` (2-byte encoding). -/
theorem c6_minimal_length_witness :
    (0x12C : Nat) < 2 ^ 64
    ∧ ((write_u64_varint 0x12C).length = max 1 ((Nat.size 0x12C + 6) / 7)
       ∧ (write_u64_varint 0x12C).length ≤ 10
       ∧ write_u64_varint 0 = [0x00]) :=
  ⟨by norm_num, c6_minimal_length 0x12C (by norm_num)⟩

lemma pushAll_done {p : Parser} {bs : List Nat} {p' : Parser} (hd : p.done = true) :
    pushAll p bs = some p' → bs = [] ∧ p' = p := by
  cases bs with
  | nil =>
    intro h
    simp [pushAll] at h
    exact ⟨rfl, h.symm⟩
  | cons b rest =>
    intro h
    simp [pushAll, Parser.push, hd] at h

lemma readLoop_of_pushAll :
    ∀ (bs : List Nat) (p p' : Parser), pushAll p bs = some p' → p.done = false →
      p'.done = false → ∀ rest, readLoop p (bs ++ rest) = readLoop p' rest := by
  intro bs
  induction bs with
  | nil =>
    intro p p' h _ _ rest
    simp [pushAll] at h
    rw [h]
    rfl
  | cons b bs ih =>
    intro p p' h hd hd' rest
    rw [List.cons_append]
    simp only [pushAll] at h
    cases hq : p.push b with
    | panicked =>
      rw [hq] at h
      simp at h
    | ret q r =>
      cases r with
      | error e =>
        rw [hq] at h
        simp at h
      | ok u =>
        cases u
        rw [hq] at h
        simp at h
        rw [readLoop_step hd hq]
        cases hqd : q.done with
        | false => exact ih q p' h hqd hd' rest
        | true =>
          obtain ⟨hbs, hp'⟩ := pushAll_done hqd h
          rw [hp'] at hd'
          rw [hqd] at hd'
          cases hd'

/-- Feeding any run of continuation bytes (bit 7 set) within the first nine
positions keeps the parser running, advancing the offset by 7 per byte and
keeping the accumulated value below `2 ^ offset`. -/
lemma contRun :
    ∀ (bs : List Nat) (k : Nat) (p : Parser), (∀ b ∈ bs, b < 256 ∧ b &&& 128 = 128) →
      p.done = false → p.offset = 7 * k → k + bs.length ≤ 9 → p.result < 2 ^ p.offset →
      ∃ p', pushAll p bs = some p' ∧ p'.done = false ∧ p'.offset = 7 * (k + bs.length) ∧
        p'.result < 2 ^ p'.offset := by
  intro bs
  induction bs with
  | nil =>
    intro k p _ hd ho _ hr
    exact ⟨p, rfl, hd, by simpa using ho, hr⟩
  | cons b bs ih =>
    intro k p hb hd ho hlen hr
    obtain ⟨hb256, hbc⟩ := hb b (List.mem_cons_self b bs)
    have hlen' : k + 1 + bs.length ≤ 9 := by
      simp [List.length_cons] at hlen
      omega
    have ho63 : p.offset ≠ 63 := by omega
    have hpush := push_cont hd ho63 hbc
    have hsm : (b &&& 127) <<< p.offset = (b &&& 127) * 2 ^ p.offset := Nat.shiftLeft_eq _ _
    have hb127 : b &&& 127 ≤ 127 := Nat.and_le_right
    have hq : p.result + (b &&& 127) * 2 ^ p.offset < 2 ^ (p.offset + 7) := by
      have h1 : (b &&& 127) * 2 ^ p.offset ≤ 127 * 2 ^ p.offset :=
        Nat.mul_le_mul_right _ hb127
      have h2 : 2 ^ (p.offset + 7) = 2 ^ p.offset * 128 := by
        rw [pow_add]
        norm_num
      omega
    have hq64 : p.result + (b &&& 127) * 2 ^ p.offset < 2 ^ 64 := by
      have h3 : 2 ^ (p.offset + 7) ≤ 2 ^ 64 := Nat.pow_le_pow_right (by norm_num) (by omega)
      omega
    rw [hsm, Nat.mod_eq_of_lt hq64] at hpush
    have ihh := ih (k + 1) ⟨false, p.result + (b &&& 127) * 2 ^ p.offset, p.offset + 7⟩
      (fun b2 hb2 => hb b2 (List.mem_cons_of_mem _ hb2)) rfl
      (by show p.offset + 7 = 7 * (k + 1); omega)
      hlen'
      (by show p.result + (b &&& 127) * 2 ^ p.offset < 2 ^ (p.offset + 7); exact hq)
    obtain ⟨p', hall, hd', ho', hr'⟩ := ihh
    refine ⟨p', ?_, hd', ?_, hr'⟩
    · simp only [pushAll, hpush]
      exact hall
    · rw [ho']
      simp [List.length_cons]
      omega

/-- C3 amended: a 10-byte input whose first 9 bytes all have the
continuation bit set is accepted only when the 10th byte is exactly `0x01`
(in which case it decodes with bit 63 set); every other 10th byte —
including `0x00` — fails with `LengthExceeded`. -/
theorem c3_amended (bs : List Nat) (b10 : Nat) (hlen : bs.length = 9)
    (hb : ∀ b ∈ bs, b < 256 ∧ b &&& 0x80 = 0x80) (_hb10 : b10 < 256) (hne : b10 ≠ 1) :
    read_u64_varint (bs ++ [b10]) = .error (.varint .lengthExceeded)
    ∧ ∃ v, read_u64_varint (bs ++ [0x01]) = .ok (v, []) ∧ Nat.testBit v 63 = true := by
  obtain ⟨p', hall, hd', ho', hr'⟩ := contRun bs 0 Parser.new hb rfl rfl (by omega)
    (by show (0 : Nat) < 2 ^ 0; norm_num)
  rw [hlen] at ho'
  have ho63 : p'.offset = 63 := by
    rw [ho']
  have hr63 : p'.result < 2 ^ 63 := by
    rw [ho63] at hr'
    exact hr'
  constructor
  · show readLoop Parser.new (bs ++ [b10]) = _
    rw [readLoop_of_pushAll bs Parser.new p' hall rfl hd' [b10]]
    exact readLoop_err hd' (push_last_bad hd' ho63 hne)
  · refine ⟨p'.result + 2 ^ 63, ?_, ?_⟩
    · show readLoop Parser.new (bs ++ [1]) = _
      rw [readLoop_of_pushAll bs Parser.new p' hall rfl hd' [1]]
      have hpush := push_last_one hd' ho63
      have hsh : (1 : Nat) <<< 63 = 2 ^ 63 := by
        rw [Nat.shiftLeft_eq]
        ring
      rw [hsh] at hpush
      have hlt : p'.result + 2 ^ 63 < 2 ^ 64 := by
        have h2 : (2 : Nat) ^ 64 = 2 ^ 63 + 2 ^ 63 := by norm_num
        omega
      rw [Nat.mod_eq_of_lt hlt] at hpush
      rw [readLoop_step hd' hpush, readLoop_done _ rfl]
    · rw [Nat.testBit_to_div_mod]
      have h0 : p'.result / 2 ^ 63 = 0 := Nat.div_eq_of_lt hr63
      have h1 : (p'.result + 2 ^ 63) / 2 ^ 63 = p'.result / 2 ^ 63 + 1 :=
        Nat.add_div_right _ (by positivity)
      norm_num at h0 h1 ⊢
      omega

/-- Witness for C3 (amended) at nine `0x80` bytes and 10th byte `0x00`. -/
theorem c3_amended_witness :
    read_u64_varint ([0x80, 0x80, 0x80, 0x80, 0x80, 0x80, 0x80, 0x80, 0x80] ++ [0x00]) =
      .error (.varint .lengthExceeded)
    ∧ ∃ v, read_u64_varint
        ([0x80, 0x80, 0x80, 0x80, 0x80, 0x80, 0x80, 0x80, 0x80] ++ [0x01]) = .ok (v, [])
        ∧ Nat.testBit v 63 = true :=
  c3_amended [0x80, 0x80, 0x80, 0x80, 0x80, 0x80, 0x80, 0x80, 0x80] 0 rfl (by decide)
    (by norm_num) (by norm_num)

/-- C5 amended: when a decoded 64-bit value does not fit the requested
`usize` width, the io-based `read_usize_varint` fails with a dedicated
error distinct from `LengthExceeded`, but the buffer-based
`try_get_usize_varint` reports the very `Error::LengthExceeded` value. -/
theorem c5_amended (m : Nat) (bs : List Nat) (v : Nat) (rest : List Nat)
    (buf : Buf) (v' : Nat) (buf' : Buf)
    (h1 : read_u64_varint bs = .ok (v, rest)) (h2 : m < v)
    (h3 : try_get_u64_varint buf = .ok (some v', buf')) (h4 : m < v') :
    read_usize_varint m bs = .error IoError.usizeExceeded
    ∧ IoError.usizeExceeded ≠ IoError.varint Error.lengthExceeded
    ∧ try_get_usize_varint m buf = .error Error.lengthExceeded := by
  refine ⟨?_, by simp, ?_⟩
  · unfold read_usize_varint
    rw [h1]
    show (if v ≤ m then (Except.ok (v, rest) : Except IoError (Nat × List Nat))
      else .error .usizeExceeded) = _
    rw [if_neg (by omega)]
  · unfold try_get_usize_varint
    rw [h3]
    show (if v' ≤ m then (Except.ok (some v', buf') : Except Error (Option Nat × Buf))
      else .error .lengthExceeded) = _
    rw [if_neg (by omega)]

/-- Witness for C5 (amended) on a 32-bit platform at the encoding of
`2 ^ 32`. -/
theorem c5_amended_witness :
    read_usize_varint (2 ^ 32 - 1) [0x80, 0x80, 0x80, 0x80, 0x10] =
      .error IoError.usizeExceeded
    ∧ IoError.usizeExceeded ≠ IoError.varint Error.lengthExceeded
    ∧ try_get_usize_varint (2 ^ 32 - 1) ⟨[0x80, 0x80, 0x80, 0x80, 0x10], 0⟩ =
      .error Error.lengthExceeded :=
  c5_amended (2 ^ 32 - 1) [0x80, 0x80, 0x80, 0x80, 0x10] (2 ^ 32) []
    ⟨[0x80, 0x80, 0x80, 0x80, 0x10], 0⟩ (2 ^ 32) ⟨[0x80, 0x80, 0x80, 0x80, 0x10], 5⟩
    (by decide) (by norm_num) (by decide) (by norm_num)

lemma and127_eq_mod (v : Nat) : v &&& 127 = v % 128 := by
  have h : (127 : Nat) = 2 ^ 7 - 1 := by norm_num
  rw [h, Nat.and_pow_two_sub_one_eq_mod]

/-- Decoding a structurally valid `n`-byte encoding (trailing zero groups
allowed) of a value `v < 2 ^ (7n)`, for `n ≤ 9`, accumulates exactly `v`. -/
lemma readLoop_padEnc :
    ∀ (n v k : Nat) (p : Parser), p.done = false → p.offset = 7 * k →
      k + n ≤ 9 → 1 ≤ n → v < 2 ^ (7 * n) → p.result < 2 ^ p.offset →
      readLoop p (padEnc v n) = .ok (p.result + v * 2 ^ p.offset, []) := by
  intro n
  induction n with
  | zero =>
    intro v k p _ _ _ h1
    exact absurd h1 (by norm_num)
  | succ n ih =>
    intro v k p hd ho hk h1 hv hr
    have hoff56 : p.offset ≤ 56 := by omega
    have ho63 : p.offset ≠ 63 := by omega
    cases n with
    | zero =>
      have hv128 : v < 128 := by
        have h128 : 2 ^ (7 * 1) = 128 := by norm_num
        omega
      obtain ⟨hb0, hb7⟩ := termByte_and v hv128
      have hpush := push_term hd ho63 hb0
      rw [hb7, Nat.shiftLeft_eq] at hpush
      have hq64 : p.result + v * 2 ^ p.offset < 2 ^ 64 := by
        have hm : v * 2 ^ p.offset ≤ 127 * 2 ^ p.offset := Nat.mul_le_mul_right _ (by omega)
        have h2 : 2 ^ (p.offset + 7) = 2 ^ p.offset * 128 := by
          rw [pow_add]
          norm_num
        have h3 : 2 ^ (p.offset + 7) ≤ 2 ^ 64 := Nat.pow_le_pow_right (by norm_num) (by omega)
        omega
      rw [Nat.mod_eq_of_lt hq64] at hpush
      show readLoop p [v] = _
      rw [readLoop_step hd hpush, readLoop_done _ rfl]
    | succ m =>
      have hw : v &&& 127 < 256 := by
        have h := and127_eq_mod v
        omega
      have hb : ((v &&& 127) ||| 128) &&& 128 = 128 := (contByte_and _ hw).1
      have hg : ((v &&& 127) ||| 128) &&& 127 = v % 128 := by
        have h := (contByte_and _ hw).2
        have h2 : (v &&& 127) % 128 = v % 128 := by
          rw [and127_eq_mod v]
          exact Nat.mod_mod_of_dvd v (by norm_num)
        rw [h2] at h
        exact h
      have hpush := push_cont hd ho63 hb
      rw [hg, Nat.shiftLeft_eq] at hpush
      have h2 : 2 ^ (p.offset + 7) = 2 ^ p.offset * 128 := by
        rw [pow_add]
        norm_num
      have hq : p.result + v % 128 * 2 ^ p.offset < 2 ^ (p.offset + 7) := by
        have hm : v % 128 * 2 ^ p.offset ≤ 127 * 2 ^ p.offset :=
          Nat.mul_le_mul_right _ (by omega)
        omega
      have hq64 : p.result + v % 128 * 2 ^ p.offset < 2 ^ 64 := by
        have h3 : 2 ^ (p.offset + 7) ≤ 2 ^ 64 := Nat.pow_le_pow_right (by norm_num) (by omega)
        omega
      rw [Nat.mod_eq_of_lt hq64] at hpush
      show readLoop p (((v &&& 127) ||| 128) :: padEnc (v >>> 7) (m + 1)) = _
      rw [readLoop_step hd hpush]
      have hshr : v >>> 7 = v / 128 := by rw [Nat.shiftRight_eq_div_pow]
      have hvd : v >>> 7 < 2 ^ (7 * (m + 1)) := by
        rw [hshr, Nat.div_lt_iff_lt_mul (by norm_num : (0 : Nat) < 128)]
        calc v < 2 ^ (7 * (m + 2)) := hv
          _ = 2 ^ (7 * (m + 1)) * 128 := by
            have he : 7 * (m + 2) = 7 * (m + 1) + 7 := by ring
            rw [he, pow_add]
            norm_num
      have ihh := ih (v >>> 7) (k + 1) ⟨false, p.result + v % 128 * 2 ^ p.offset, p.offset + 7⟩
        rfl (by show p.offset + 7 = 7 * (k + 1); omega) (by omega) (by omega) hvd
        (by show p.result + v % 128 * 2 ^ p.offset < 2 ^ (p.offset + 7); exact hq)
      rw [ihh]
      show Except.ok (p.result + v % 128 * 2 ^ p.offset + v >>> 7 * 2 ^ (p.offset + 7),
        ([] : List Nat)) = _
      rw [hshr]
      have key : p.result + v % 128 * 2 ^ p.offset + v / 128 * 2 ^ (p.offset + 7)
          = p.result + v * 2 ^ p.offset := by
        rw [h2]
        have h := Nat.mod_add_div v 128
        calc p.result + v % 128 * 2 ^ p.offset + v / 128 * (2 ^ p.offset * 128)
            = p.result + (v % 128 + 128 * (v / 128)) * 2 ^ p.offset := by ring
          _ = p.result + v * 2 ^ p.offset := by rw [h]
      rw [key]

/-- C7 counterexample: `[0x81, 0x80 × 8, 0x00]` is a structurally valid
10-byte non-minimal encoding of 1 per the spec's wire-format section (its
10th byte is exactly `0x00`), yet the decoder rejects it with
`LengthExceeded` instead of accepting it as the claim states. -/
theorem c7_counterexample :
    read_u64_varint [0x81, 0x80, 0x80, 0x80, 0x80, 0x80, 0x80, 0x80, 0x80, 0x00] =
      .error (.varint .lengthExceeded) := by decide

/-- C7 amended: every non-minimal but structurally valid encoding of at most
9 bytes (trailing zero groups, terminal byte with bit 7 clear) is accepted
and decodes to the same numeric value `v` as the minimal encoding; in
particular `[0x80, 0x00]` decodes to 0.  (10-byte paddings ending in `0x00`
are rejected, see the counterexample.) -/
theorem c7_nonminimal (v n : Nat) (h1 : 1 ≤ n) (h9 : n ≤ 9) (hv : v < 2 ^ (7 * n)) :
    read_u64_varint (padEnc v n) = .ok (v, [])
    ∧ read_u64_varint [0x80, 0x00] = .ok (0, []) := by
  constructor
  · have h := readLoop_padEnc n v 0 Parser.new rfl rfl (by omega) h1 hv
      (by show (0 : Nat) < 2 ^ 0; norm_num)
    show readLoop Parser.new (padEnc v n) = _
    rw [h]
    show Except.ok (0 + v * 2 ^ 0, ([] : List Nat)) = _
    norm_num
  · decide

/-- Witness for C7 (amended): the 2-byte non-minimal encoding of 0. -/
theorem c7_nonminimal_witness :
    read_u64_varint (padEnc 0 2) = .ok (0, [])
    ∧ read_u64_varint [0x80, 0x00] = .ok (0, []) :=
  c7_nonminimal 0 2 (by norm_num) (by norm_num) (by norm_num)

/-- Invariant of successful `push` runs: offsets stay multiples of 7 below
64, at most 10 bytes can ever be pushed, and the 10th push (when it
succeeds) necessarily finishes the parser. -/
lemma pushAll_inv :
    ∀ (bs : List Nat) (k : Nat) (p p' : Parser), p.done = false → p.offset = 7 * k →
      k ≤ 9 → pushAll p bs = some p' →
      bs.length + k ≤ 10 ∧ p'.offset % 7 = 0 ∧ p'.offset ≤ 63 ∧
        (p'.done = false → p'.offset = 7 * (k + bs.length)) ∧
        (bs.length + k = 10 → p'.done = true) := by
  intro bs
  induction bs with
  | nil =>
    intro k p p' hd ho hk h
    simp [pushAll] at h
    subst h
    refine ⟨by simp; omega, by omega, by omega, ?_, ?_⟩
    · intro _
      rw [ho]
      simp
    · intro h10
      exfalso
      simp at h10
      omega
  | cons b bs ih =>
    intro k p p' hd ho hk h
    simp only [pushAll] at h
    cases hq : p.push b with
    | panicked =>
      rw [hq] at h
      simp at h
    | ret q r =>
      cases r with
      | error e =>
        rw [hq] at h
        simp at h
      | ok u =>
        cases u
        rw [hq] at h
        simp at h
        by_cases h63 : p.offset = 63
        · have hk9 : k = 9 := by omega
          have hb1 : b = 1 := by
            by_contra hb1
            rw [push_last_bad hd h63 hb1] at hq
            cases hq
          subst hb1
          rw [push_last_one hd h63] at hq
          injection hq with hq1 hq2
          have hqd : q.done = true := by rw [← hq1]
          obtain ⟨hbs, hp'⟩ := pushAll_done hqd h
          subst hbs
          subst hp'
          refine ⟨by simp; omega, ?_, ?_, ?_, fun _ => hqd⟩
          · rw [← hq1]
            show (63 : Nat) % 7 = 0
            norm_num
          · rw [← hq1]
          · intro hdf
            rw [hqd] at hdf
            cases hdf
        · have hk8 : k ≤ 8 := by omega
          by_cases hb0 : b &&& 128 = 0
          · rw [push_term hd h63 hb0] at hq
            injection hq with hq1 hq2
            have hqd : q.done = true := by rw [← hq1]
            obtain ⟨hbs, hp'⟩ := pushAll_done hqd h
            subst hbs
            subst hp'
            refine ⟨by simp; omega, ?_, ?_, ?_, fun _ => hqd⟩
            · rw [← hq1]
              show (p.offset + 7) % 7 = 0
              omega
            · rw [← hq1]
              show p.offset + 7 ≤ 63
              omega
            · intro hdf
              rw [hqd] at hdf
              cases hdf
          · have hb128 : b &&& 128 = 128 := by
              have h2p : b &&& 128 = (b.testBit 7).toNat * 128 := by
                have h := Nat.and_two_pow b 7
                norm_num at h
                exact h
              cases htb : b.testBit 7
              · rw [htb] at h2p
                simp at h2p
                exact absurd h2p hb0
              · rw [htb] at h2p
                simpa using h2p
            rw [push_cont hd h63 hb128] at hq
            injection hq with hq1 hq2
            have hqd : q.done = false := by rw [← hq1]
            have hqo : q.offset = 7 * (k + 1) := by
              rw [← hq1]
              show p.offset + 7 = 7 * (k + 1)
              omega
            obtain ⟨l1, l2, l3, l4, l5⟩ := ih (k + 1) q p' hqd hqo (by omega) h
            refine ⟨by simp; omega, l2, l3, ?_, ?_⟩
            · intro hdf
              rw [l4 hdf]
              simp [List.length_cons]
              ring
            · intro h10
              apply l5
              simp [List.length_cons] at h10
              omega

/-- Every successful `read_u64_varint` run consumed a prefix of the source
that `pushAll` accepts, finishing in a done parser. -/
lemma readLoop_consumed :
    ∀ (bs : List Nat) (p : Parser) (v : Nat) (rest : List Nat),
      readLoop p bs = .ok (v, rest) →
      ∃ c p2, bs = c ++ rest ∧ pushAll p c = some p2 ∧ p2.done = true := by
  intro bs
  induction bs with
  | nil =>
    intro p v rest h
    cases hpd : p.done
    · simp [readLoop, hpd] at h
    · simp [readLoop, hpd] at h
      obtain ⟨hv, hrest⟩ := h
      exact ⟨[], p, by simp [hrest], rfl, hpd⟩
  | cons b bs ih =>
    intro p v rest h
    cases hpd : p.done
    · simp only [readLoop, hpd, Bool.false_eq_true, if_false] at h
      cases hq : p.push b with
      | panicked =>
        rw [hq] at h
        simp at h
      | ret q r =>
        cases r with
        | error e =>
          rw [hq] at h
          simp at h
        | ok u =>
          cases u
          rw [hq] at h
          obtain ⟨c, p2, hcs, hall, hd2⟩ := ih q v rest h
          refine ⟨b :: c, p2, by rw [List.cons_append, hcs], ?_, hd2⟩
          simp only [pushAll, hq]
          exact hall
    · simp [readLoop, hpd] at h
      obtain ⟨hv, hrest⟩ := h
      exact ⟨[], p, by simp [hrest], rfl, hpd⟩

/-- C9: along any sequence of successful `push` calls on a fresh parser the
bit offset stays a multiple of 7 bounded by 63, advancing by exactly 7 per
non-terminal byte; at most 10 pushes can ever succeed (after the 10th the
parser is done), and the `read_u64_varint` adapter loop consumes at most 10
bytes per value. -/
theorem c9_invariant (bs : List Nat) (p' : Parser) (h : pushAll Parser.new bs = some p') :
    (p'.offset % 7 = 0 ∧ p'.offset ≤ 63)
    ∧ bs.length ≤ 10
    ∧ (p'.done = false → p'.offset = 7 * bs.length)
    ∧ (bs.length = 10 → p'.done = true)
    ∧ (∀ (q q2 : Parser) (b : Nat) (r : Except Error Unit),
        q.done = false → q.offset ≠ 63 → q.push b = .ret q2 r → q2.offset = q.offset + 7)
    ∧ (∀ (cs : List Nat) (v : Nat) (rest : List Nat),
        read_u64_varint cs = .ok (v, rest) → ∃ c, cs = c ++ rest ∧ c.length ≤ 10) := by
  obtain ⟨l1, l2, l3, l4, l5⟩ := pushAll_inv bs 0 Parser.new p' rfl rfl (by omega) h
  refine ⟨⟨l2, l3⟩, by omega, ?_, ?_, ?_, ?_⟩
  · intro hdf
    rw [l4 hdf]
    ring
  · intro h10
    exact l5 (by omega)
  · intro q q2 b r hqd hq63 hq
    unfold Parser.push at hq
    rw [hqd] at hq
    rw [if_neg (by simp)] at hq
    rw [if_neg hq63] at hq
    injection hq with hq1 hq2
    rw [← hq1]
  · intro cs v rest hread
    obtain ⟨c, p2, hcs, hall, _⟩ := readLoop_consumed cs Parser.new v rest hread
    obtain ⟨m1, _, _, _, _⟩ := pushAll_inv c 0 Parser.new p2 rfl rfl (by omega) hall
    exact ⟨c, hcs, by omega⟩

/-- Witness for C9 at the single-byte input `[0x03]`. -/
theorem c9_invariant_witness :
    ((Parser.mk true 3 7).offset % 7 = 0 ∧ (Parser.mk true 3 7).offset ≤ 63)
    ∧ ([(0x03 : Nat)]).length ≤ 10
    ∧ ((Parser.mk true 3 7).done = false → (Parser.mk true 3 7).offset = 7 * [(0x03 : Nat)].length)
    ∧ ([(0x03 : Nat)].length = 10 → (Parser.mk true 3 7).done = true)
    ∧ (∀ (q q2 : Parser) (b : Nat) (r : Except Error Unit),
        q.done = false → q.offset ≠ 63 → q.push b = .ret q2 r → q2.offset = q.offset + 7)
    ∧ (∀ (cs : List Nat) (v : Nat) (rest : List Nat),
        read_u64_varint cs = .ok (v, rest) → ∃ c, cs = c ++ rest ∧ c.length ≤ 10) :=
  c9_invariant [0x03] ⟨true, 3, 7⟩ (by decide)

/-- When the buffered loop returns a value, the index it returns counts
exactly the bytes of the shortest complete-value prefix of the resident
bytes. -/
lemma tryGetLoop_some :
    ∀ (bytes : List Nat) (p : Parser) (i v j : Nat),
      tryGetLoop p bytes i = .ok (some (v, j)) →
      ∃ n, j = i + n ∧ n ≤ bytes.length ∧
        (∃ q, pushAll p (bytes.take n) = some q ∧ q.done = true ∧ q.result = v) ∧
        (∀ m < n, ∃ q, pushAll p (bytes.take m) = some q ∧ q.done = false) := by
  intro bytes
  induction bytes with
  | nil =>
    intro p i v j h
    cases hpd : p.done
    · simp [tryGetLoop, hpd] at h
    · simp [tryGetLoop, hpd] at h
      obtain ⟨hv, hj⟩ := h
      exact ⟨0, by omega, by simp, ⟨p, rfl, hpd, hv⟩,
        by intro m hm; exact absurd hm (by omega)⟩
  | cons b bs ih =>
    intro p i v j h
    cases hpd : p.done
    · simp only [tryGetLoop, hpd, Bool.false_eq_true, if_false] at h
      cases hq : p.push b with
      | panicked =>
        rw [hq] at h
        simp at h
      | ret q r =>
        cases r with
        | error e =>
          rw [hq] at h
          simp at h
        | ok u =>
          cases u
          rw [hq] at h
          obtain ⟨n, hj, hlen, ⟨qq, hall, hqd, hqv⟩, hmin⟩ := ih q (i + 1) v j h
          refine ⟨n + 1, by omega, by simp; omega, ⟨qq, ?_, hqd, hqv⟩, ?_⟩
          · simp only [List.take_succ_cons, pushAll, hq]
            exact hall
          · intro m hm
            cases m with
            | zero => exact ⟨p, rfl, hpd⟩
            | succ mm =>
              obtain ⟨qq2, hall2, hd2⟩ := hmin mm (by omega)
              refine ⟨qq2, ?_, hd2⟩
              simp only [List.take_succ_cons, pushAll, hq]
              exact hall2
    · simp [tryGetLoop, hpd] at h
      obtain ⟨hv, hj⟩ := h
      exact ⟨0, by omega, by simp, ⟨p, rfl, hpd, hv⟩,
        by intro m hm; exact absurd hm (by omega)⟩

/-- When all resident bytes are consumed without finishing (and without an
error), the buffered loop reports `none` ("incomplete"). -/
lemma tryGetLoop_of_pushAll :
    ∀ (bytes : List Nat) (p q : Parser) (i : Nat), pushAll p bytes = some q →
      q.done = false → p.done = false → tryGetLoop p bytes i = .ok none := by
  intro bytes
  induction bytes with
  | nil =>
    intro p q i h hqd hpd
    simp [pushAll] at h
    subst h
    simp [tryGetLoop, hpd]
  | cons b bs ih =>
    intro p q i h hqd hpd
    simp only [pushAll] at h
    cases hq : p.push b with
    | panicked =>
      rw [hq] at h
      simp at h
    | ret q2 r =>
      cases r with
      | error e =>
        rw [hq] at h
        simp at h
      | ok u =>
        cases u
        rw [hq] at h
        simp at h
        cases hq2d : q2.done
        · simp only [tryGetLoop, hpd, Bool.false_eq_true, if_false, hq]
          exact ih q2 q (i + 1) h hqd hq2d
        · obtain ⟨hbs, hqq⟩ := pushAll_done hq2d h
          rw [hqq] at hqd
          rw [hq2d] at hqd
          cases hqd

/-- C8: the buffered optional read advances the consumed position only when
a complete value has been parsed, and by exactly the number of bytes of
that value (the shortest complete prefix); when the resident bytes are
exhausted before the parser is done it returns "incomplete" with the buffer
unchanged, so the caller can retry. -/
theorem c8_frame (buf : Buf) :
    (match try_get_u64_varint buf with
     | .ok (none, buf2) => buf2 = buf
     | .ok (some v, buf2) => buf2.data = buf.data ∧
         ∃ n, buf2.pos = buf.pos + n ∧ n ≤ buf.remaining.length ∧
           (∃ q, pushAll Parser.new (buf.remaining.take n) = some q ∧ q.done = true ∧
             q.result = v) ∧
           (∀ m < n, ∃ q, pushAll Parser.new (buf.remaining.take m) = some q ∧
             q.done = false)
     | .error _ => True)
    ∧ (∀ q, pushAll Parser.new buf.remaining = some q → q.done = false →
        try_get_u64_varint buf = .ok (none, buf)) := by
  have hunfold : try_get_u64_varint buf =
      match tryGetLoop Parser.new buf.remaining 0 with
      | .ok (some (v, i)) => .ok (some v, buf.advance i)
      | .ok none => .ok (none, buf)
      | .error e => .error e := rfl
  constructor
  · cases hloop : tryGetLoop Parser.new buf.remaining 0 with
    | error e =>
      rw [hunfold, hloop]
      exact trivial
    | ok o =>
      cases o with
      | none =>
        rw [hunfold, hloop]
      | some vi =>
        obtain ⟨v, i⟩ := vi
        rw [hunfold, hloop]
        obtain ⟨n, hj, hlen, hdone, hmin⟩ := tryGetLoop_some buf.remaining Parser.new 0 v i hloop
        refine ⟨rfl, n, ?_, hlen, hdone, hmin⟩
        show buf.pos + i = buf.pos + n
        omega
  · intro q hall hqd
    have hloop := tryGetLoop_of_pushAll buf.remaining Parser.new q 0 hall hqd rfl
    rw [hunfold, hloop]

/-- Witness for C8 at the concrete buffer `⟨[0xAC, 0x02], 0⟩`. -/
theorem c8_frame_witness :
    (match try_get_u64_varint ⟨[0xAC, 0x02], 0⟩ with
     | .ok (none, buf2) => buf2 = ⟨[0xAC, 0x02], 0⟩
     | .ok (some v, buf2) => buf2.data = (Buf.mk [0xAC, 0x02] 0).data ∧
         ∃ n, buf2.pos = (Buf.mk [0xAC, 0x02] 0).pos + n ∧
           n ≤ (Buf.mk [0xAC, 0x02] 0).remaining.length ∧
           (∃ q, pushAll Parser.new ((Buf.mk [0xAC, 0x02] 0).remaining.take n) = some q ∧
             q.done = true ∧ q.result = v) ∧
           (∀ m < n, ∃ q, pushAll Parser.new ((Buf.mk [0xAC, 0x02] 0).remaining.take m) = some q ∧
             q.done = false)
     | .error _ => True)
    ∧ (∀ q, pushAll Parser.new (Buf.mk [0xAC, 0x02] 0).remaining = some q → q.done = false →
        try_get_u64_varint ⟨[0xAC, 0x02], 0⟩ = .ok (none, ⟨[0xAC, 0x02], 0⟩)) :=
  c8_frame ⟨[0xAC, 0x02], 0⟩

example : read_u64_varint [0x00] = .ok (0, []) := by decide
example : read_u64_varint [0x01] = .ok (1, []) := by decide
example : read_u64_varint [0xAC, 0x02] = .ok (0x12C, []) := by decide
example : read_u64_varint [0xB5, 0xFF, 0xAC, 0x02] = .ok (0x4B3FB5, []) := by decide
example : read_u64_varint [0x80, 0x00] = .ok (0, []) := by decide
example : read_u64_varint
    [0xFF, 0xFF, 0xFF, 0xFF, 0xFF, 0xFF, 0xFF, 0xFF, 0xFF, 0x01] =
    .ok (0xFFFFFFFFFFFFFFFF, []) := by decide
example : read_u64_varint
    [0xFF, 0xFF, 0xFF, 0xFF, 0xFF, 0xFF, 0xFF, 0xFF, 0xFF, 0x02] =
    .error (.varint .lengthExceeded) := by decide
example : read_u64_varint
    [0x80, 0x80, 0x80, 0x80, 0x80, 0x80, 0x80, 0x80, 0x80, 0x00] =
    .error (.varint .lengthExceeded) := by decide
example : try_read_u64_varint [0xFF] = .ok (none, []) := by decide
example : try_read_u64_varint [] = .ok (none, []) := by decide
example : try_get_u64_varint ⟨[0xAC, 0x02], 0⟩ = .ok (some 0x12C, ⟨[0xAC, 0x02], 2⟩) := by
  decide
example : try_get_u64_varint ⟨[0xAC], 0⟩ = .ok (none, ⟨[0xAC], 0⟩) := by decide
